import Mathlib

/-!
Shallow embedding of `project.py` from the `logic-parser-z3` repository.

The program parses a propositional-logic formula with a backtracking
grammar parser (`X`, `paren`, `var`, `negate`, `joint`, `disj`, `conj`,
`implies`, `iff`), then enumerates all `2^n` assignments of the registered
variables (`test`) and prints a truth table.

The parser is embedded with an explicit fuel parameter because the source's
`joint` loop, driven by Python's `str.rfind` with a possibly negative `end`
argument, does not terminate on all inputs.  A result of `PR.div` means the
computation did not finish within the given fuel; `PR.fail` is the source's
`False` return value; `PR.ok e` is a valid expression.  The global `VARS`
registry is threaded through every function as an explicit `List Char` of
interned variable names, in insertion order, mirroring the Python dict.
-/

/-- Expression tree: the z3 `BoolRef` values the parser builds.  The `iff`
rule of the source builds `And (Implies x y) (Implies y x)`, so there is no
distinct iff constructor. -/
inductive Expr where
  | var (c : Char)
  | val (b : Bool)
  | neg (e : Expr)
  | conj (a b : Expr)
  | disj (a b : Expr)
  | impl (a b : Expr)
deriving DecidableEq, Repr

/-- Result of a parsing function: fuel exhausted (`div`, marking a
computation that does not finish), the source's `False` (`fail`), or a
valid expression. -/
inductive PR where
  | div
  | fail
  | ok (e : Expr)
deriving DecidableEq, Repr

/-- Result of the `joint` helper: like `PR` but success carries the two
sub-expressions. -/
inductive JR where
  | div
  | fail
  | ok (x y : Expr)
deriving DecidableEq, Repr

/-- Python slice-index normalisation as used by `str.rfind`: a negative
index counts from the end of the string, then the value is clamped to
`[0, len]`. -/
def pyIdx (len : Nat) (i : Int) : Nat :=
  if i < 0 then (i + len).toNat else min i.toNat len

/-- Character of `s` at Python index `i` (negative indices count from the
end); a space is returned out of range, which no reachable call hits. -/
def charAt (s : List Char) (i : Int) : Char :=
  s.getD (pyIdx s.length i) ' '

/-- Does `sub` occur in `s` starting at position `j`? -/
def listMatchAt (s sub : List Char) (j : Nat) : Bool :=
  decide ((s.drop j).take sub.length = sub)

/-- Scan downward from `j` for the highest occurrence of `sub` at a
position `≥ a`. -/
def rfindFrom (s sub : List Char) (a : Nat) : Nat → Option Nat
  | 0 => if a = 0 ∧ listMatchAt s sub 0 then some 0 else none
  | j + 1 =>
    if a ≤ j + 1 ∧ listMatchAt s sub (j + 1) then some (j + 1)
    else rfindFrom s sub a j

/-- Python `s.rfind(sub, start, fin)`: highest index `j` with
`start ≤ j`, `j + len sub ≤ fin` (after slice normalisation) and `sub`
occurring at `j`; `-1` if there is none. -/
def pyRfind (s sub : List Char) (start fin : Int) : Int :=
  let a := pyIdx s.length start
  let b := pyIdx s.length fin
  if sub.length ≤ b then
    match rfindFrom s sub a (b - sub.length) with
    | some j => (j : Int)
    | none => -1
  else -1

/-- The `VARS` dict of the source: intern a variable name, keeping
first-seen insertion order. -/
def internVar (ρ : List Char) (c : Char) : List Char :=
  if c ∈ ρ then ρ else ρ ++ [c]

/-- Sequencing of rule attempts inside `X`: a rule returning the source's
`False` falls through to the next rule with the registry it produced;
`ok` and `div` short-circuit. -/
def tryRule (res : PR × List Char) (next : List Char → PR × List Char) :
    PR × List Char :=
  match res with
  | (.fail, ρ) => next ρ
  | other => other

/-- Rule `X = (X)` (`paren` in the source): if the span is wrapped in
parentheses, the result is exactly the interior parse (`x if is_z3(x) else
False`). -/
def parenR (Xr : Int → Int → List Char → PR × List Char) (s : List Char)
    (l r : Int) (ρ : List Char) : PR × List Char :=
  if charAt s l = '(' ∧ charAt s r = ')' then Xr (l + 1) (r - 1) ρ
  else (.fail, ρ)

/-- Rules `X = v`, `X = T`, `X = F` (`var` in the source). -/
def varR (s : List Char) (l r : Int) (ρ : List Char) : PR × List Char :=
  if r ≠ l then (.fail, ρ)
  else
    let c := charAt s r
    if c.isLower then (.ok (.var c), internVar ρ c)
    else if c = 'T' then (.ok (.val true), ρ)
    else if c = 'F' then (.ok (.val false), ρ)
    else (.fail, ρ)

/-- Rule `X = ~X` (`negate` in the source). -/
def negateR (Xr : Int → Int → List Char → PR × List Char) (s : List Char)
    (l r : Int) (ρ : List Char) : PR × List Char :=
  if charAt s l = '~' then
    match Xr (l + 1) r ρ with
    | (.ok e, ρ') => (.ok (.neg e), ρ')
    | other => other
  else (.fail, ρ)

/-- The retry loop of `joint`: `i` is the current candidate occurrence of
`tok`; both sides are parsed (each parse mutates the registry even when the
other fails, as in the source), and on failure the next candidate is
`rfind(tok, l, i - 1)`.  One unit of loop fuel is spent per iteration. -/
def jointLoop (Xr : Int → Int → List Char → PR × List Char)
    (s tok : List Char) (l r : Int) : Nat → Int → List Char → JR × List Char
  | 0, _, ρ => (.div, ρ)
  | m + 1, i, ρ =>
    if i = -1 then (.fail, ρ)
    else
      match Xr l (i - 1) ρ with
      | (.div, ρ₁) => (.div, ρ₁)
      | (xr, ρ₁) =>
        match Xr (i + (tok.length : Int)) r ρ₁ with
        | (.div, ρ₂) => (.div, ρ₂)
        | (yr, ρ₂) =>
          match xr, yr with
          | .ok x, .ok y => (.ok x y, ρ₂)
          | _, _ => jointLoop Xr s tok l r m (pyRfind s tok l (i - 1)) ρ₂

/-- `joint` of the source: start at the rightmost occurrence of `tok` in
`[l, r]` and retry leftward. -/
def jointR (Xr : Int → Int → List Char → PR × List Char)
    (s tok : List Char) (l r : Int) (m : Nat) (ρ : List Char) :
    JR × List Char :=
  jointLoop Xr s tok l r m (pyRfind s tok l (r + 1)) ρ

/-- A binary-operator rule (`disj`, `conj`, `implies`, `iff` in the
source): run `joint` and combine the two sub-expressions with `mk`. -/
def opR (mk : Expr → Expr → Expr)
    (Xr : Int → Int → List Char → PR × List Char) (s tok : List Char)
    (l r : Int) (m : Nat) (ρ : List Char) : PR × List Char :=
  match jointR Xr s tok l r m ρ with
  | (.div, ρ') => (.div, ρ')
  | (.fail, ρ') => (.fail, ρ')
  | (.ok x y, ρ') => (.ok (mk x y), ρ')

/-- Operator token of the `iff` rule. -/
def iffTok : List Char := ['<', '-', '>']

/-- Operator token of the `implies` rule. -/
def impTok : List Char := ['-', '>']

/-- Operator token of the `disj` rule. -/
def orTok : List Char := ['|']

/-- Operator token of the `conj` rule. -/
def andTok : List Char := ['&']

/-- How the `iff` rule of the source builds its node:
`And(Implies(x, y), Implies(y, x))`. -/
def iffMk (x y : Expr) : Expr := .conj (.impl x y) (.impl y x)

/-- The recursive parser `X` of the source, with fuel.  Rules are tried in
the source's order: paren, var, iff, implies, disj, conj, negate; a rule
that returns `False` falls through to the next one, threading the
registry. -/
def Xf : Nat → List Char → Int → Int → List Char → PR × List Char
  | 0, _, _, _, ρ => (.div, ρ)
  | n + 1, s, l, r, ρ =>
    if l > r then (.fail, ρ)
    else
      tryRule (parenR (Xf n s) s l r ρ) fun ρ₁ =>
      tryRule (varR s l r ρ₁) fun ρ₂ =>
      tryRule (opR iffMk (Xf n s) s iffTok l r n ρ₂) fun ρ₃ =>
      tryRule (opR .impl (Xf n s) s impTok l r n ρ₃) fun ρ₄ =>
      tryRule (opR .disj (Xf n s) s orTok l r n ρ₄) fun ρ₅ =>
      tryRule (opR .conj (Xf n s) s andTok l r n ρ₅) fun ρ₆ =>
      negateR (Xf n s) s l r ρ₆

/-- Whitespace removal of `get_z3_expr`: `text.replace(" ", "")`. -/
def stripSpaces (s : List Char) : List Char := s.filter (· ≠ ' ')

/-- `get_z3_expr` of the source: strip spaces and parse the whole string,
starting from an empty registry (a fresh session). -/
def getZ3Expr (n : Nat) (text : List Char) : PR × List Char :=
  let st := stripSpaces text
  Xf n st 0 ((st.length : Int) - 1) ρ₀
where ρ₀ : List Char := []

/-- The span `[l, r]` of `s` parses to `e` at some fuel (with a fresh
registry). -/
def SpanParses (s : List Char) (l r : Int) (e : Expr) : Prop :=
  ∃ n, (Xf n s l r []).1 = .ok e

/-- The span `[l, r]` of `s` has no valid parse at any fuel. -/
def NoParse (s : List Char) (l r : Int) : Prop :=
  ∀ n e, (Xf n s l r []).1 ≠ .ok e

/-- The whole string parses to `e` (as `get_z3_expr` does for a
whitespace-free string). -/
def Parses (s : List Char) (e : Expr) : Prop :=
  SpanParses s 0 ((s.length : Int) - 1) e

/-- Variables referenced in an expression tree. -/
def Expr.varsOf : Expr → List Char
  | .var c => [c]
  | .val _ => []
  | .neg e => e.varsOf
  | .conj a b => a.varsOf ++ b.varsOf
  | .disj a b => a.varsOf ++ b.varsOf
  | .impl a b => a.varsOf ++ b.varsOf

/-- Direct recursive Boolean evaluation of an expression tree under a
total assignment, with the standard z3 semantics of the connectives the
parser emits: `Not`, `And`, `Or`, `Implies(a,b) = (NOT a) OR b`. -/
def Expr.eval (σ : Char → Bool) : Expr → Bool
  | .var c => σ c
  | .val b => b
  | .neg e => !(e.eval σ)
  | .conj a b => a.eval σ && b.eval σ
  | .disj a b => a.eval σ || b.eval σ
  | .impl a b => !(a.eval σ) || b.eval σ

/-- Modelled from the spec: the z3 `Solver.check` call in `test`.  The z3
library is external to the source tree; per the spec it is fed "the tree
plus one equality constraint per variable" and asked "whether the whole
formula is simultaneously satisfiable under that pinned assignment". -/
def solverCheck (e : Expr) (vs : List Char) (asn : Char → Bool) : Prop :=
  ∃ σ : Char → Bool, Expr.eval σ e = true ∧ ∀ c ∈ vs, σ c = asn c

/-- The assignment booleans of row `i` in `test`: the variable at index
`vi` of the sorted list is true iff `i & bit == bit` for
`bit = 2 ^ (var_cnt - vi - 1)`. -/
def rowBools (varCnt i : Nat) : List Bool :=
  (List.range varCnt).map fun vi =>
    decide (i &&& 2 ^ (varCnt - vi - 1) = 2 ^ (varCnt - vi - 1))

/-- Row `i`'s assignment as a function on variable names (false off the
registry, which no in-tree variable hits). -/
def rowAssign (vs : List Char) (i : Nat) : Char → Bool := fun c =>
  match vs.indexOf? c with
  | some v => decide (i &&& 2 ^ (vs.length - v - 1) = 2 ^ (vs.length - v - 1))
  | none => false

/-- The rows `test` emits: `i` runs from `0` to `2 ^ n - 1` in increasing
order; each row pairs the assignment booleans with the formula's value.
The z3 satisfiability call computing the value is modelled by direct
evaluation (see `solverCheck`, whose equivalence with direct evaluation is
proved below). -/
def tableRows (vs : List Char) (e : Expr) : List (List Bool × Bool) :=
  (List.range (2 ^ vs.length)).map fun i =>
    (rowBools vs.length i, e.eval (rowAssign vs i))

/-- `sorted(VARS.items())` of the source: registry keys in alphabetical
order. -/
def sortKeys (ρ : List Char) : List Char := ρ.mergeSort (· ≤ ·)

/-- One full fresh-registry session: parse the text, then enumerate the
table rows over the sorted registry; `none` when the parse fails. -/
def sessionRows (n : Nat) (text : List Char) : Option (List (List Bool × Bool)) :=
  match getZ3Expr n text with
  | (.ok e, ρ) => some (tableRows (sortKeys ρ) e)
  | _ => none

/-- `main` of the source: `1` when fewer or more than one argument is
supplied or the argument fails to parse, otherwise `0` after printing the
table.  `argv` includes the program name at index 0, as `sys.argv`
does. -/
def mainRet (n : Nat) (argv : List (List Char)) : Nat :=
  if argv.length < 2 then 1
  else if argv.length > 2 then 1
  else
    match getZ3Expr n (argv.getD 1 []) with
    | (.ok _, _) => 0
    | _ => 1

/-- The module-level call of the source (`if __name__ == "__main__":
main()`): it runs `main` and discards the returned value, so the
interpreter exits with status 0 whenever `main` returns. -/
def scriptExit (n : Nat) (argv : List (List Char)) : Nat :=
  let _ := mainRet n argv
  0

/-! ## Basic lemmas about the rule combinators -/

theorem tryRule_ok (e : Expr) (ρ : List Char) (f : List Char → PR × List Char) :
    tryRule (.ok e, ρ) f = (.ok e, ρ) := rfl

theorem tryRule_div (ρ : List Char) (f : List Char → PR × List Char) :
    tryRule (.div, ρ) f = (.div, ρ) := rfl

theorem tryRule_fail (ρ : List Char) (f : List Char → PR × List Char) :
    tryRule (.fail, ρ) f = f ρ := rfl

/-! ## Divergence of the parser on `&a`

The `joint` loop for `&` finds the occurrence at index 0, the left
sub-parse of the empty span fails, and `rfind("&", 0, -1)` — Python
interpreting the end index `-1` as `len - 1` — finds index 0 again, so the
`while` loop never ends. -/

/-- The malformed input `&a` of the spec's test list. -/
def ampA : List Char := ['&', 'a']

theorem ampA_joint_div : ∀ (m n : Nat) (ρ : List Char),
    (jointLoop (Xf n ampA) ampA andTok 0 1 m 0 ρ).1 = .div := by
  intro m
  induction m with
  | zero => intro n ρ; rfl
  | succ m ih =>
    intro n ρ
    match n with
    | 0 => rfl
    | Nat.succ k =>
      have step : jointLoop (Xf (k + 1) ampA) ampA andTok 0 1 (m + 1) 0 ρ =
          jointLoop (Xf (k + 1) ampA) ampA andTok 0 1 m 0 (internVar ρ 'a') := rfl
      rw [step]
      exact ih (k + 1) (internVar ρ 'a')

/-- The parser diverges on `&a` at every fuel: the code's `while` loop in
`joint` never terminates there. -/
theorem ampA_div : ∀ (n : Nat) (ρ : List Char), (Xf n ampA 0 1 ρ).1 = .div := by
  intro n ρ
  match n with
  | 0 => rfl
  | 1 => rfl
  | Nat.succ (Nat.succ j) =>
    have hstep : Xf (j + 2) ampA 0 1 ρ =
        tryRule (opR .conj (Xf (j + 1) ampA) ampA andTok 0 1 (j + 1) ρ)
          (fun ρ₆ => negateR (Xf (j + 1) ampA) ampA 0 1 ρ₆) := rfl
    rw [hstep]
    have hj := ampA_joint_div (j + 1) (j + 1) ρ
    rcases hq : jointLoop (Xf (j + 1) ampA) ampA andTok 0 1 (j + 1) 0 ρ with ⟨jr, ρ'⟩
    rw [hq] at hj
    simp only at hj
    subst hj
    have hop : opR .conj (Xf (j + 1) ampA) ampA andTok 0 1 (j + 1) ρ = (.div, ρ') := by
      have hjr : jointR (Xf (j + 1) ampA) ampA andTok 0 1 (j + 1) ρ =
          jointLoop (Xf (j + 1) ampA) ampA andTok 0 1 (j + 1) 0 ρ := rfl
      rw [opR, hjr, hq]
    rw [hop, tryRule_div]

/-! ## Fuel monotonicity: a result other than `div` is stable under more
fuel, registry included. -/

theorem jointLoop_mono (n : Nat) (s : List Char)
    (hX : ∀ (l r : Int) (ρ : List Char),
      (Xf n s l r ρ).1 ≠ .div → Xf (n + 1) s l r ρ = Xf n s l r ρ)
    (tok : List Char) (l r : Int) :
    ∀ (m : Nat) (i : Int) (ρ : List Char),
      (jointLoop (Xf n s) s tok l r m i ρ).1 ≠ .div →
      jointLoop (Xf (n + 1) s) s tok l r (m + 1) i ρ =
        jointLoop (Xf n s) s tok l r m i ρ := by
  intro m
  induction m with
  | zero => intro i ρ h; exact absurd rfl h
  | succ m ih =>
    intro i ρ h
    by_cases hi : i = -1
    · subst hi; rfl
    · rcases hx : Xf n s l (i - 1) ρ with ⟨xr, ρ₁⟩
      cases xr with
      | div =>
        rw [jointLoop] at h
        simp only [hi, if_false, hx] at h
        exact absurd rfl h
      | fail =>
        have hx1 : Xf (n + 1) s l (i - 1) ρ = (.fail, ρ₁) := by
          rw [hX l (i - 1) ρ (by rw [hx]; exact fun hc => PR.noConfusion hc), hx]
        rcases hy : Xf n s (i + (tok.length : Int)) r ρ₁ with ⟨yr, ρ₂⟩
        cases yr with
        | div =>
          rw [jointLoop] at h
          simp only [hi, if_false, hx, hy] at h
          exact absurd rfl h
        | fail =>
          have hy1 : Xf (n + 1) s (i + (tok.length : Int)) r ρ₁ = (.fail, ρ₂) := by
            rw [hX _ r ρ₁ (by rw [hy]; exact fun hc => PR.noConfusion hc), hy]
          rw [jointLoop] at h
          simp only [hi, if_false, hx, hy] at h
          rw [jointLoop, jointLoop]
          simp only [hi, if_false, hx, hy, hx1, hy1]
          exact ih _ _ h
        | ok y =>
          have hy1 : Xf (n + 1) s (i + (tok.length : Int)) r ρ₁ = (.ok y, ρ₂) := by
            rw [hX _ r ρ₁ (by rw [hy]; exact fun hc => PR.noConfusion hc), hy]
          rw [jointLoop] at h
          simp only [hi, if_false, hx, hy] at h
          rw [jointLoop, jointLoop]
          simp only [hi, if_false, hx, hy, hx1, hy1]
          exact ih _ _ h
      | ok x =>
        have hx1 : Xf (n + 1) s l (i - 1) ρ = (.ok x, ρ₁) := by
          rw [hX l (i - 1) ρ (by rw [hx]; exact fun hc => PR.noConfusion hc), hx]
        rcases hy : Xf n s (i + (tok.length : Int)) r ρ₁ with ⟨yr, ρ₂⟩
        cases yr with
        | div =>
          rw [jointLoop] at h
          simp only [hi, if_false, hx, hy] at h
          exact absurd rfl h
        | fail =>
          have hy1 : Xf (n + 1) s (i + (tok.length : Int)) r ρ₁ = (.fail, ρ₂) := by
            rw [hX _ r ρ₁ (by rw [hy]; exact fun hc => PR.noConfusion hc), hy]
          rw [jointLoop] at h
          simp only [hi, if_false, hx, hy] at h
          rw [jointLoop, jointLoop]
          simp only [hi, if_false, hx, hy, hx1, hy1]
          exact ih _ _ h
        | ok y =>
          have hy1 : Xf (n + 1) s (i + (tok.length : Int)) r ρ₁ = (.ok y, ρ₂) := by
            rw [hX _ r ρ₁ (by rw [hy]; exact fun hc => PR.noConfusion hc), hy]
          rw [jointLoop, jointLoop]
          simp only [hi, if_false, hx, hy, hx1, hy1]

theorem tryRule_congr (A₁ A₂ : PR × List Char) (k₁ k₂ : List Char → PR × List Char)
    (hA : A₁.1 ≠ .div → A₂ = A₁)
    (hk : ∀ ρ, (k₁ ρ).1 ≠ .div → k₂ ρ = k₁ ρ) :
    (tryRule A₁ k₁).1 ≠ .div → tryRule A₂ k₂ = tryRule A₁ k₁ := by
  intro h
  rcases hA1 : A₁ with ⟨pr, ρ'⟩
  cases pr with
  | div =>
    rw [hA1, tryRule_div] at h
    exact absurd rfl h
  | ok e => rw [hA (by rw [hA1]; exact fun hc => PR.noConfusion hc), hA1,
      tryRule_ok, tryRule_ok]
  | fail =>
    rw [hA (by rw [hA1]; exact fun hc => PR.noConfusion hc), hA1,
      tryRule_fail, tryRule_fail]
    apply hk
    rw [hA1, tryRule_fail] at h
    exact h

theorem parenR_mono (n : Nat) (s : List Char) (l r : Int) (ρ : List Char)
    (hX : ∀ (l r : Int) (ρ : List Char),
      (Xf n s l r ρ).1 ≠ .div → Xf (n + 1) s l r ρ = Xf n s l r ρ)
    (h : (parenR (Xf n s) s l r ρ).1 ≠ .div) :
    parenR (Xf (n + 1) s) s l r ρ = parenR (Xf n s) s l r ρ := by
  by_cases hg : charAt s l = '(' ∧ charAt s r = ')'
  · unfold parenR at h ⊢
    rw [if_pos hg] at h
    rw [if_pos hg, if_pos hg]
    exact hX _ _ _ h
  · unfold parenR
    rw [if_neg hg, if_neg hg]

theorem negateR_mono (n : Nat) (s : List Char) (l r : Int) (ρ : List Char)
    (hX : ∀ (l r : Int) (ρ : List Char),
      (Xf n s l r ρ).1 ≠ .div → Xf (n + 1) s l r ρ = Xf n s l r ρ)
    (h : (negateR (Xf n s) s l r ρ).1 ≠ .div) :
    negateR (Xf (n + 1) s) s l r ρ = negateR (Xf n s) s l r ρ := by
  by_cases hg : charAt s l = '~'
  · unfold negateR at h ⊢
    rw [if_pos hg] at h
    rw [if_pos hg, if_pos hg]
    rcases hrec : Xf n s (l + 1) r ρ with ⟨pr, ρ'⟩
    cases pr with
    | div =>
      rw [hrec] at h
      exact absurd rfl h
    | fail =>
      rw [hX _ _ _ (by rw [hrec]; exact fun hc => PR.noConfusion hc), hrec]
    | ok e =>
      rw [hX _ _ _ (by rw [hrec]; exact fun hc => PR.noConfusion hc), hrec]
  · unfold negateR
    rw [if_neg hg, if_neg hg]

theorem opR_mono (mk : Expr → Expr → Expr) (n : Nat) (s tok : List Char)
    (l r : Int) (ρ : List Char)
    (hX : ∀ (l r : Int) (ρ : List Char),
      (Xf n s l r ρ).1 ≠ .div → Xf (n + 1) s l r ρ = Xf n s l r ρ)
    (h : (opR mk (Xf n s) s tok l r n ρ).1 ≠ .div) :
    opR mk (Xf (n + 1) s) s tok l r (n + 1) ρ = opR mk (Xf n s) s tok l r n ρ := by
  unfold opR jointR at h ⊢
  rcases hq : jointLoop (Xf n s) s tok l r n (pyRfind s tok l (r + 1)) ρ with ⟨jr, ρ'⟩
  cases jr with
  | div =>
    rw [hq] at h
    exact absurd rfl h
  | fail =>
    rw [jointLoop_mono n s hX tok l r n _ ρ (by rw [hq]; exact fun hc => JR.noConfusion hc),
      hq]
  | ok x y =>
    rw [jointLoop_mono n s hX tok l r n _ ρ (by rw [hq]; exact fun hc => JR.noConfusion hc),
      hq]

theorem Xf_mono_succ : ∀ (n : Nat) (s : List Char) (l r : Int) (ρ : List Char),
    (Xf n s l r ρ).1 ≠ .div → Xf (n + 1) s l r ρ = Xf n s l r ρ := by
  intro n
  induction n with
  | zero => intro s l r ρ h; exact absurd rfl h
  | succ n ih =>
    intro s l r ρ h
    by_cases hlr : l > r
    · conv_lhs => rw [Xf]
      conv_rhs => rw [Xf]
      rw [if_pos hlr, if_pos hlr]
    · rw [Xf] at h
      rw [if_neg hlr] at h
      conv_lhs => rw [Xf]
      conv_rhs => rw [Xf]
      rw [if_neg hlr, if_neg hlr]
      refine tryRule_congr _ _ _ _ (fun hp => parenR_mono n s l r ρ (ih s) hp)
        (fun ρ₁ => ?_) h
      refine tryRule_congr _ _ _ _ (fun _ => rfl) (fun ρ₂ => ?_)
      refine tryRule_congr _ _ _ _
        (fun hp => opR_mono iffMk n s iffTok l r ρ₂ (ih s) hp) (fun ρ₃ => ?_)
      refine tryRule_congr _ _ _ _
        (fun hp => opR_mono .impl n s impTok l r ρ₃ (ih s) hp) (fun ρ₄ => ?_)
      refine tryRule_congr _ _ _ _
        (fun hp => opR_mono .disj n s orTok l r ρ₄ (ih s) hp) (fun ρ₅ => ?_)
      refine tryRule_congr _ _ _ _
        (fun hp => opR_mono .conj n s andTok l r ρ₅ (ih s) hp) (fun ρ₆ => ?_)
      exact fun hp => negateR_mono n s l r ρ₆ (ih s) hp

theorem Xf_mono_le {n m : Nat} (hnm : n ≤ m) (s : List Char) (l r : Int)
    (ρ : List Char) (h : (Xf n s l r ρ).1 ≠ .div) :
    Xf m s l r ρ = Xf n s l r ρ := by
  induction m, hnm using Nat.le_induction with
  | base => rfl
  | succ m hm ih => rw [Xf_mono_succ m s l r ρ (by rw [ih]; exact h), ih]

/-- A span that concretely evaluates to `fail` at one fuel has no valid
parse at any fuel. -/
theorem noParse_of_fail {N : Nat} {s : List Char} {l r : Int}
    (h : (Xf N s l r []).1 = .fail) : NoParse s l r := by
  intro n e hok
  rcases le_or_lt n N with hle | hlt
  · have hs := Xf_mono_le hle s l r [] (by rw [hok]; exact fun hc => PR.noConfusion hc)
    rw [hs, hok] at h
    exact PR.noConfusion h
  · have hs := Xf_mono_le hlt.le s l r [] (by rw [h]; exact fun hc => PR.noConfusion hc)
    rw [hs, h] at hok
    exact PR.noConfusion hok

/-- The parse result of a span is unique across fuels. -/
theorem spanParses_unique {s : List Char} {l r : Int} {e e' : Expr}
    (h : SpanParses s l r e) (h' : SpanParses s l r e') : e = e' := by
  obtain ⟨n, hn⟩ := h
  obtain ⟨m, hm⟩ := h'
  rcases le_total n m with hle | hle
  · have hs := Xf_mono_le hle s l r [] (by rw [hn]; exact fun hc => PR.noConfusion hc)
    rw [hs, hn] at hm
    exact PR.ok.inj hm
  · have hs := Xf_mono_le hle s l r [] (by rw [hm]; exact fun hc => PR.noConfusion hc)
    rw [hs, hm] at hn
    exact (PR.ok.inj hn).symm

/-! ## Registry independence: the parse result (though not the final
registry) never depends on the initial registry contents. -/

theorem tryRule_reg (A₁ A₂ : PR × List Char) (k₁ k₂ : List Char → PR × List Char)
    (hA : A₁.1 = A₂.1) (hk : ∀ ρ ρ', (k₁ ρ).1 = (k₂ ρ').1) :
    (tryRule A₁ k₁).1 = (tryRule A₂ k₂).1 := by
  rcases A₁ with ⟨pr, ρ₁⟩
  rcases A₂ with ⟨pr', ρ₂⟩
  simp only at hA
  subst hA
  cases pr with
  | div => rfl
  | ok e => rfl
  | fail => rw [tryRule_fail, tryRule_fail]; exact hk ρ₁ ρ₂

theorem jointLoop_reg (n : Nat) (s : List Char)
    (hX : ∀ (l r : Int) (ρ ρ' : List Char), (Xf n s l r ρ).1 = (Xf n s l r ρ').1)
    (tok : List Char) (l r : Int) :
    ∀ (m : Nat) (i : Int) (ρ ρ' : List Char),
      (jointLoop (Xf n s) s tok l r m i ρ).1 =
        (jointLoop (Xf n s) s tok l r m i ρ').1 := by
  intro m
  induction m with
  | zero => intro i ρ ρ'; rfl
  | succ m ih =>
    intro i ρ ρ'
    by_cases hi : i = -1
    · subst hi; rfl
    · rcases hx : Xf n s l (i - 1) ρ with ⟨xr, ρ₁⟩
      rcases hx' : Xf n s l (i - 1) ρ' with ⟨xr', ρ₁'⟩
      have hxx : xr = xr' := by
        have hh := hX l (i - 1) ρ ρ'
        rw [hx, hx'] at hh
        exact hh
      subst hxx
      cases xr with
      | div =>
        rw [jointLoop, jointLoop]
        simp only [hi, if_false, hx, hx']
      | fail =>
        rcases hy : Xf n s (i + (tok.length : Int)) r ρ₁ with ⟨yr, ρ₂⟩
        rcases hy' : Xf n s (i + (tok.length : Int)) r ρ₁' with ⟨yr', ρ₂'⟩
        have hyy : yr = yr' := by
          have hh := hX (i + (tok.length : Int)) r ρ₁ ρ₁'
          rw [hy, hy'] at hh
          exact hh
        subst hyy
        cases yr with
        | div =>
          rw [jointLoop, jointLoop]
          simp only [hi, if_false, hx, hx', hy, hy']
        | fail =>
          rw [jointLoop, jointLoop]
          simp only [hi, if_false, hx, hx', hy, hy']
          exact ih _ ρ₂ ρ₂'
        | ok y =>
          rw [jointLoop, jointLoop]
          simp only [hi, if_false, hx, hx', hy, hy']
          exact ih _ ρ₂ ρ₂'
      | ok x =>
        rcases hy : Xf n s (i + (tok.length : Int)) r ρ₁ with ⟨yr, ρ₂⟩
        rcases hy' : Xf n s (i + (tok.length : Int)) r ρ₁' with ⟨yr', ρ₂'⟩
        have hyy : yr = yr' := by
          have hh := hX (i + (tok.length : Int)) r ρ₁ ρ₁'
          rw [hy, hy'] at hh
          exact hh
        subst hyy
        cases yr with
        | div =>
          rw [jointLoop, jointLoop]
          simp only [hi, if_false, hx, hx', hy, hy']
        | fail =>
          rw [jointLoop, jointLoop]
          simp only [hi, if_false, hx, hx', hy, hy']
          exact ih _ ρ₂ ρ₂'
        | ok y =>
          rw [jointLoop, jointLoop]
          simp only [hi, if_false, hx, hx', hy, hy']

theorem parenR_reg (n : Nat) (s : List Char) (l r : Int) (ρ ρ' : List Char)
    (hX : ∀ (l r : Int) (ρ ρ' : List Char), (Xf n s l r ρ).1 = (Xf n s l r ρ').1) :
    (parenR (Xf n s) s l r ρ).1 = (parenR (Xf n s) s l r ρ').1 := by
  unfold parenR
  by_cases hg : charAt s l = '(' ∧ charAt s r = ')'
  · rw [if_pos hg, if_pos hg]
    exact hX _ _ ρ ρ'
  · rw [if_neg hg, if_neg hg]

theorem varR_reg (s : List Char) (l r : Int) (ρ ρ' : List Char) :
    (varR s l r ρ).1 = (varR s l r ρ').1 := by
  unfold varR
  by_cases h1 : r ≠ l
  · rw [if_pos h1, if_pos h1]
  · rw [if_neg h1, if_neg h1]
    by_cases h2 : (charAt s r).isLower
    · simp only [h2, if_true]
    · simp only [h2, Bool.false_eq_true, if_false]
      by_cases h3 : charAt s r = 'T'
      · rw [if_pos h3, if_pos h3]
      · rw [if_neg h3, if_neg h3]
        by_cases h4 : charAt s r = 'F'
        · rw [if_pos h4, if_pos h4]
        · rw [if_neg h4, if_neg h4]

theorem negateR_reg (n : Nat) (s : List Char) (l r : Int) (ρ ρ' : List Char)
    (hX : ∀ (l r : Int) (ρ ρ' : List Char), (Xf n s l r ρ).1 = (Xf n s l r ρ').1) :
    (negateR (Xf n s) s l r ρ).1 = (negateR (Xf n s) s l r ρ').1 := by
  unfold negateR
  by_cases hg : charAt s l = '~'
  · rw [if_pos hg, if_pos hg]
    rcases hrec : Xf n s (l + 1) r ρ with ⟨pr, ρ₁⟩
    rcases hrec' : Xf n s (l + 1) r ρ' with ⟨pr', ρ₁'⟩
    have hpp : pr = pr' := by
      have hh := hX (l + 1) r ρ ρ'
      rw [hrec, hrec'] at hh
      exact hh
    subst hpp
    cases pr <;> rfl
  · rw [if_neg hg, if_neg hg]

theorem opR_reg (mk : Expr → Expr → Expr) (n : Nat) (s tok : List Char)
    (l r : Int) (m : Nat) (ρ ρ' : List Char)
    (hX : ∀ (l r : Int) (ρ ρ' : List Char), (Xf n s l r ρ).1 = (Xf n s l r ρ').1) :
    (opR mk (Xf n s) s tok l r m ρ).1 = (opR mk (Xf n s) s tok l r m ρ').1 := by
  unfold opR jointR
  rcases hq : jointLoop (Xf n s) s tok l r m (pyRfind s tok l (r + 1)) ρ with ⟨jr, ρ₁⟩
  rcases hq' : jointLoop (Xf n s) s tok l r m (pyRfind s tok l (r + 1)) ρ' with ⟨jr', ρ₁'⟩
  have hjj : jr = jr' := by
    have hh := jointLoop_reg n s hX tok l r m (pyRfind s tok l (r + 1)) ρ ρ'
    rw [hq, hq'] at hh
    exact hh
  subst hjj
  cases jr <;> rfl

/-- The parse result of any span is independent of the initial registry
contents (only the returned registry differs): leftover `VARS` state from
other formulas cannot change what a formula parses to. -/
theorem Xf_reg : ∀ (n : Nat) (s : List Char) (l r : Int) (ρ ρ' : List Char),
    (Xf n s l r ρ).1 = (Xf n s l r ρ').1 := by
  intro n
  induction n with
  | zero => intro s l r ρ ρ'; rfl
  | succ n ih =>
    intro s l r ρ ρ'
    conv_lhs => rw [Xf]
    conv_rhs => rw [Xf]
    by_cases hlr : l > r
    · rw [if_pos hlr, if_pos hlr]
    · rw [if_neg hlr, if_neg hlr]
      refine tryRule_reg _ _ _ _ (parenR_reg n s l r ρ ρ' (ih s)) fun ρ₁ ρ₁' => ?_
      refine tryRule_reg _ _ _ _ (varR_reg s l r ρ₁ ρ₁') fun ρ₂ ρ₂' => ?_
      refine tryRule_reg _ _ _ _ (opR_reg iffMk n s iffTok l r n ρ₂ ρ₂' (ih s))
        fun ρ₃ ρ₃' => ?_
      refine tryRule_reg _ _ _ _ (opR_reg .impl n s impTok l r n ρ₃ ρ₃' (ih s))
        fun ρ₄ ρ₄' => ?_
      refine tryRule_reg _ _ _ _ (opR_reg .disj n s orTok l r n ρ₄ ρ₄' (ih s))
        fun ρ₅ ρ₅' => ?_
      refine tryRule_reg _ _ _ _ (opR_reg .conj n s andTok l r n ρ₅ ρ₅' (ih s))
        fun ρ₆ ρ₆' => ?_
      exact negateR_reg n s l r ρ₆ ρ₆' (ih s)

/-! ## Spans beginning with an operator character never parse

Each operator token starts with `&`, `|`, `-` or `<`; a span whose first
character is one of these fails every rule (binary rules always place that
character at the start of their left sub-span, or produce an empty left
sub-span). -/

/-- First characters of the four operator tokens. -/
def opStart : List Char := ['&', '|', '-', '<']

theorem tryRule_ne_ok (A : PR × List Char) (k : List Char → PR × List Char)
    (e : Expr) (hA : ∀ e', A.1 ≠ .ok e') (hk : ∀ ρ, (k ρ).1 ≠ .ok e) :
    (tryRule A k).1 ≠ .ok e := by
  rcases hA1 : A with ⟨pr, ρ⟩
  cases pr with
  | div => exact fun hc => PR.noConfusion hc
  | fail => exact hk ρ
  | ok e' =>
    have := hA e'
    rw [hA1] at this
    exact absurd rfl this

theorem jointLoop_opStart (n : Nat) (s : List Char)
    (hX : ∀ (l r : Int) (ρ : List Char) (e : Expr),
      charAt s l ∈ opStart → (Xf n s l r ρ).1 ≠ .ok e)
    (tok : List Char) (l r : Int) (hc : charAt s l ∈ opStart) :
    ∀ (m : Nat) (i : Int) (ρ : List Char) (x y : Expr),
      (jointLoop (Xf n s) s tok l r m i ρ).1 ≠ .ok x y := by
  intro m
  induction m with
  | zero => intro i ρ x y hk; exact JR.noConfusion hk
  | succ m ih =>
    intro i ρ x y
    by_cases hi : i = -1
    · subst hi
      exact fun hk => JR.noConfusion hk
    · rcases hx : Xf n s l (i - 1) ρ with ⟨xr, ρ₁⟩
      have hxr : ∀ e', xr ≠ .ok e' := by
        intro e' he
        have := hX l (i - 1) ρ e' hc
        rw [hx, he] at this
        exact absurd rfl this
      cases xr with
      | ok e' => exact absurd rfl (hxr e')
      | div =>
        rw [jointLoop]
        simp only [hi, if_false, hx]
        exact fun hk => JR.noConfusion hk
      | fail =>
        rcases hy : Xf n s (i + (tok.length : Int)) r ρ₁ with ⟨yr, ρ₂⟩
        cases yr with
        | div =>
          rw [jointLoop]
          simp only [hi, if_false, hx, hy]
          exact fun hk => JR.noConfusion hk
        | fail =>
          rw [jointLoop]
          simp only [hi, if_false, hx, hy]
          exact ih _ ρ₂ x y
        | ok e₂ =>
          rw [jointLoop]
          simp only [hi, if_false, hx, hy]
          exact ih _ ρ₂ x y

theorem varR_opStart (s : List Char) (l r : Int) (ρ : List Char)
    (hc : charAt s l ∈ opStart) : ∀ e, (varR s l r ρ).1 ≠ .ok e := by
  intro e
  unfold varR
  by_cases h1 : r ≠ l
  · rw [if_pos h1]
    exact fun hk => PR.noConfusion hk
  · rw [if_neg h1]
    push_neg at h1
    rw [h1]
    simp only [opStart, List.mem_cons, List.not_mem_nil, or_false] at hc
    rcases hc with hc | hc | hc | hc <;>
      rw [hc] <;> exact fun hk => PR.noConfusion hk

/-- A span whose first character is an operator character never parses. -/
theorem Xf_opStart : ∀ (n : Nat) (s : List Char) (l r : Int) (ρ : List Char)
    (e : Expr), charAt s l ∈ opStart → (Xf n s l r ρ).1 ≠ .ok e := by
  intro n
  induction n with
  | zero => intro s l r ρ e _ hk; exact PR.noConfusion hk
  | succ n ih =>
    intro s l r ρ e hc
    rw [Xf]
    by_cases hlr : l > r
    · rw [if_pos hlr]
      exact fun hk => PR.noConfusion hk
    · rw [if_neg hlr]
      have hparen : charAt s l ≠ '(' := by
        intro hh
        rw [hh] at hc
        simp [opStart] at hc
      have hneg : charAt s l ≠ '~' := by
        intro hh
        rw [hh] at hc
        simp [opStart] at hc
      have hopR : ∀ (mk : Expr → Expr → Expr) (tok : List Char) (m : Nat)
          (ρ' : List Char) (e' : Expr),
          (opR mk (Xf n s) s tok l r m ρ').1 ≠ .ok e' := by
        intro mk tok m ρ' e'
        unfold opR jointR
        rcases hq : jointLoop (Xf n s) s tok l r m (pyRfind s tok l (r + 1)) ρ'
          with ⟨jr, ρ₁⟩
        cases jr with
        | div => exact fun hk => PR.noConfusion hk
        | fail => exact fun hk => PR.noConfusion hk
        | ok x y =>
          have := jointLoop_opStart n s (fun l r ρ e hcc => ih s l r ρ e hcc)
            tok l r hc m (pyRfind s tok l (r + 1)) ρ' x y
          rw [hq] at this
          exact absurd rfl this
      refine tryRule_ne_ok _ _ _ (fun e' => ?_) fun ρ₁ => ?_
      · unfold parenR
        rw [if_neg (fun hand => hparen hand.1)]
        exact fun hk => PR.noConfusion hk
      refine tryRule_ne_ok _ _ _ (fun e' => varR_opStart s l r ρ₁ hc e') fun ρ₂ => ?_
      refine tryRule_ne_ok _ _ _ (fun e' => hopR iffMk iffTok n ρ₂ e') fun ρ₃ => ?_
      refine tryRule_ne_ok _ _ _ (fun e' => hopR .impl impTok n ρ₃ e') fun ρ₄ => ?_
      refine tryRule_ne_ok _ _ _ (fun e' => hopR .disj orTok n ρ₄ e') fun ρ₅ => ?_
      refine tryRule_ne_ok _ _ _ (fun e' => hopR .conj andTok n ρ₅ e') fun ρ₆ => ?_
      unfold negateR
      rw [if_neg hneg]
      exact fun hk => PR.noConfusion hk

/-! ## Facts about the `rfind` model -/

theorem rfindFrom_mem {s sub : List Char} {a : Nat} :
    ∀ {j k : Nat}, rfindFrom s sub a j = some k →
      a ≤ k ∧ k ≤ j ∧ listMatchAt s sub k = true := by
  intro j
  induction j with
  | zero =>
    intro k h
    unfold rfindFrom at h
    split at h
    · rename_i hcond
      cases h
      exact ⟨Nat.le_of_eq hcond.1, Nat.le_refl 0, hcond.2⟩
    · exact Option.noConfusion h
  | succ j ih =>
    intro k h
    unfold rfindFrom at h
    split at h
    · rename_i hcond
      cases h
      exact ⟨hcond.1, Nat.le_refl _, hcond.2⟩
    · obtain ⟨h1, h2, h3⟩ := ih h
      exact ⟨h1, Nat.le_succ_of_le h2, h3⟩

theorem pyRfind_mem (s tok : List Char) (l e : Int) :
    pyRfind s tok l e = -1 ∨
      (0 ≤ pyRfind s tok l e ∧ (pyIdx s.length l : Int) ≤ pyRfind s tok l e ∧
        listMatchAt s tok (pyRfind s tok l e).toNat = true) := by
  unfold pyRfind
  by_cases hb : tok.length ≤ pyIdx s.length e
  · rw [if_pos hb]
    rcases hq : rfindFrom s tok (pyIdx s.length l) (pyIdx s.length e - tok.length)
      with _ | j
    · exact Or.inl rfl
    · obtain ⟨h1, _, h3⟩ := rfindFrom_mem hq
      right
      refine ⟨Int.ofNat_nonneg j, ?_, ?_⟩
      · show (pyIdx s.length l : Int) ≤ (j : Int)
        exact_mod_cast h1
      · show listMatchAt s tok ((j : Int)).toNat = true
        simpa using h3
  · rw [if_neg hb]
    exact Or.inl rfl

theorem listMatchAt_le {s tok : List Char} {j : Nat} (hne : tok ≠ [])
    (h : listMatchAt s tok j = true) : j + tok.length ≤ s.length := by
  unfold listMatchAt at h
  rw [decide_eq_true_eq] at h
  have hlen : ((s.drop j).take tok.length).length = tok.length := by rw [h]
  rw [List.length_take, List.length_drop] at hlen
  have : tok.length ≤ s.length - j := by omega
  by_cases hj : j ≤ s.length
  · omega
  · exfalso
    have hd : s.drop j = [] := List.drop_eq_nil_of_le (by omega)
    rw [hd, List.take_nil] at h
    exact hne h.symm

theorem listMatchAt_zero_head {s tok : List Char} (hne : tok ≠ [])
    (h : listMatchAt s tok 0 = true) : charAt s 0 = tok.headD ' ' := by
  unfold listMatchAt at h
  rw [decide_eq_true_eq] at h
  rcases tok with _ | ⟨c, tok'⟩
  · exact absurd rfl hne
  · rcases s with _ | ⟨d, s'⟩
    · simp at h
    · simp only [List.drop_nil, List.drop] at h
      have : d = c := by
        have := congrArg (List.headD · ' ') h
        simpa using this
      rw [this]
      rfl

/-! ## Shift lemmas: wrapping the string in parentheses shifts every
in-bounds observation by one. -/

theorem charAt_shift (s : List Char) (j : Int) (h0 : 0 ≤ j)
    (hlen : j < (s.length : Int)) :
    charAt ('(' :: s ++ [')']) (j + 1) = charAt s j := by
  rw [List.cons_append]
  unfold charAt pyIdx
  have hj0 : ¬ j + 1 < 0 := by omega
  have hj0' : ¬ j < 0 := by omega
  rw [if_neg hj0, if_neg hj0']
  have hlen' : ('(' :: (s ++ [')'])).length = s.length + 2 := by simp
  rw [hlen']
  have h1 : min (j + 1).toNat (s.length + 2) = j.toNat + 1 := by omega
  have h2 : min j.toNat s.length = j.toNat := by omega
  rw [h1, h2, List.getD_cons_succ]
  exact List.getD_append _ _ _ _ (by omega)

theorem listMatchAt_shift (s tok : List Char) (hne : tok ≠ [])
    (hpar : ')' ∉ tok) (j : Nat) :
    listMatchAt ('(' :: s ++ [')']) tok (j + 1) = listMatchAt s tok j := by
  rw [List.cons_append]
  have htl : 1 ≤ tok.length := List.length_pos.mpr hne
  unfold listMatchAt
  rw [List.drop_succ_cons]
  rcases le_or_lt (j + tok.length) s.length with hle | hlt
  · have hj : j ≤ s.length := by omega
    rw [List.drop_append_eq_append_drop, List.take_append_eq_append_take]
    have h1 : j - s.length = 0 := by omega
    rw [h1, List.drop_zero]
    have h2 : tok.length - (s.drop j).length = 0 := by
      rw [List.length_drop]
      omega
    rw [h2, List.take_zero, List.append_nil]
  · have hR : ¬ ((s.drop j).take tok.length = tok) := by
      intro hh
      have := listMatchAt_le hne (by unfold listMatchAt; exact decide_eq_true hh)
      omega
    have hL : ¬ (((s ++ [')']).drop j).take tok.length = tok) := by
      intro hh
      rcases le_or_lt (j + tok.length) (s.length + 1) with hle2 | hlt2
      · apply hpar
        rw [← hh]
        have hj : j ≤ s.length := by omega
        have hdrop : (s ++ [')']).drop j = s.drop j ++ [')'] := by
          rw [List.drop_append_eq_append_drop]
          have h1 : j - s.length = 0 := by omega
          rw [h1, List.drop_zero]
        rw [hdrop]
        have hlen2 : (s.drop j ++ [')']).length ≤ tok.length := by
          rw [List.length_append, List.length_drop]
          simp only [List.length_cons, List.length_nil]
          omega
        rw [List.take_of_length_le hlen2]
        simp
      · have hlen3 := congrArg List.length hh
        rw [List.length_take, List.length_drop, List.length_append] at hlen3
        simp only [List.length_cons, List.length_nil] at hlen3
        omega
    rw [decide_eq_false hR, decide_eq_false hL]

theorem rfindFrom_shift (s tok : List Char) (hne : tok ≠ []) (hpar : ')' ∉ tok) :
    ∀ (j a : Nat), rfindFrom ('(' :: s ++ [')']) tok (a + 1) (j + 1) =
      (rfindFrom s tok a j).map (· + 1) := by
  intro j
  induction j with
  | zero =>
    intro a
    conv_lhs => rw [rfindFrom]
    conv_rhs => rw [rfindFrom]
    rw [listMatchAt_shift s tok hne hpar 0]
    by_cases h1 : a = 0
    · subst h1
      by_cases h2 : listMatchAt s tok 0 = true
      · rw [if_pos ⟨by omega, h2⟩, if_pos ⟨rfl, h2⟩]
        rfl
      · rw [if_neg (fun hc => h2 hc.2), if_neg (fun hc => h2 hc.2)]
        rw [rfindFrom]
        rw [if_neg (fun hc => by omega)]
        rfl
    · rw [if_neg (fun hc => h1 (by omega)), if_neg (fun hc => h1 hc.1)]
      rw [rfindFrom]
      rw [if_neg (fun hc => by omega)]
      rfl
  | succ j ih =>
    intro a
    conv_lhs => rw [rfindFrom]
    conv_rhs => rw [rfindFrom]
    rw [listMatchAt_shift s tok hne hpar (j + 1)]
    by_cases hc : a ≤ j + 1 ∧ listMatchAt s tok (j + 1) = true
    · rw [if_pos ⟨by omega, hc.2⟩, if_pos hc]
      rfl
    · have hc' : ¬ (a + 1 ≤ j + 1 + 1 ∧ listMatchAt s tok (j + 1) = true) := by
        intro hcc
        exact hc ⟨by omega, hcc.2⟩
      rw [if_neg hc', if_neg hc]
      exact ih a

theorem pyRfind_shift (s tok : List Char) (hne : tok ≠ []) (hpar : ')' ∉ tok)
    (l e : Int) (hl0 : 0 ≤ l) (hl : l ≤ (s.length : Int)) (he0 : 0 ≤ e)
    (he : e ≤ (s.length : Int)) :
    pyRfind ('(' :: s ++ [')']) tok (l + 1) (e + 1) =
      (if pyRfind s tok l e = -1 then -1 else pyRfind s tok l e + 1) := by
  have htl : 1 ≤ tok.length := List.length_pos.mpr hne
  have hslen : ('(' :: s ++ [')']).length = s.length + 2 := by simp
  have hA : pyIdx ('(' :: s ++ [')']).length (l + 1) = pyIdx s.length l + 1 := by
    unfold pyIdx
    rw [hslen, if_neg (by omega : ¬ l + 1 < 0), if_neg (by omega : ¬ l < 0)]
    omega
  have hB : pyIdx ('(' :: s ++ [')']).length (e + 1) = pyIdx s.length e + 1 := by
    unfold pyIdx
    rw [hslen, if_neg (by omega : ¬ e + 1 < 0), if_neg (by omega : ¬ e < 0)]
    omega
  unfold pyRfind
  rw [hA, hB]
  rcases le_or_lt tok.length (pyIdx s.length e) with hb | hb
  · rw [if_pos (by omega : tok.length ≤ pyIdx s.length e + 1), if_pos hb]
    have hsub : pyIdx s.length e + 1 - tok.length = (pyIdx s.length e - tok.length) + 1 := by
      omega
    rw [hsub, rfindFrom_shift s tok hne hpar]
    rcases hq : rfindFrom s tok (pyIdx s.length l) (pyIdx s.length e - tok.length)
      with _ | j
    · rfl
    · have : ((j : Int)) ≠ -1 := by omega
      rw [if_neg this]
      rfl
  · rcases le_or_lt tok.length (pyIdx s.length e + 1) with hb2 | hb3
    · -- tok.length = pyIdx e + 1 : shifted guard passes, base fails
      rw [if_pos hb2, if_neg (by omega : ¬ tok.length ≤ pyIdx s.length e)]
      have hz : pyIdx s.length e + 1 - tok.length = 0 := by omega
      rw [hz, rfindFrom]
      rw [if_neg (fun hc => by omega)]
      rfl
    · rw [if_neg (by omega : ¬ tok.length ≤ pyIdx s.length e + 1),
        if_neg (by omega : ¬ tok.length ≤ pyIdx s.length e)]
      rfl

theorem jointLoop_shift (n : Nat) (s : List Char)
    (hX : ∀ (l r : Int) (ρ ρ' : List Char), 0 ≤ l → r ≤ (s.length : Int) - 1 →
      (Xf n ('(' :: s ++ [')']) (l + 1) (r + 1) ρ).1 = (Xf n s l r ρ').1)
    (tok : List Char) (hne : tok ≠ []) (hpar : ')' ∉ tok)
    (h0 : listMatchAt s tok 0 = false)
    (l r : Int) (hl0 : 0 ≤ l) (hl2 : l ≤ (s.length : Int))
    (hr : r ≤ (s.length : Int) - 1) :
    ∀ (m : Nat) (i : Int) (ρ ρ' : List Char),
      (i = -1 ∨ (0 ≤ i ∧ listMatchAt s tok i.toNat = true)) →
      (jointLoop (Xf n ('(' :: s ++ [')'])) ('(' :: s ++ [')']) tok (l + 1) (r + 1) m
        (if i = -1 then -1 else i + 1) ρ).1 =
      (jointLoop (Xf n s) s tok l r m i ρ').1 := by
  intro m
  induction m with
  | zero => intro i ρ ρ' _; rfl
  | succ m ih =>
    intro i ρ ρ' hinv
    by_cases hi : i = -1
    · rw [if_pos hi]
      subst hi
      rfl
    · rw [if_neg hi]
      rcases hinv with hinv | ⟨hi0, hmatch⟩
      · exact absurd hinv hi
      have htl : 1 ≤ tok.length := List.length_pos.mpr hne
      have hi1 : 1 ≤ i := by
        rcases eq_or_lt_of_le hi0 with heq | hlt
        · exfalso
          rw [← heq] at hmatch
          simp only [Int.toNat_zero] at hmatch
          rw [h0] at hmatch
          exact Bool.noConfusion hmatch
        · omega
      have hiup : i.toNat + tok.length ≤ s.length := listMatchAt_le hne hmatch
      have hilen : i + (tok.length : Int) ≤ (s.length : Int) := by omega
      have hxeq : (Xf n ('(' :: s ++ [')']) (l + 1) (i + 1 - 1) ρ).1 =
          (Xf n s l (i - 1) ρ').1 := by
        have hh := hX l (i - 1) ρ ρ' hl0 (by omega)
        have e1 : i - 1 + 1 = i + 1 - 1 := by ring
        rw [e1] at hh
        exact hh
      have hnext : pyRfind ('(' :: s ++ [')']) tok (l + 1) (i + 1 - 1) =
          (if pyRfind s tok l (i - 1) = -1 then -1 else pyRfind s tok l (i - 1) + 1) := by
        have hh := pyRfind_shift s tok hne hpar l (i - 1) hl0 hl2 (by omega) (by omega)
        have e1 : i - 1 + 1 = i + 1 - 1 := by ring
        rw [e1] at hh
        exact hh
      have hmem : pyRfind s tok l (i - 1) = -1 ∨
          (0 ≤ pyRfind s tok l (i - 1) ∧
            listMatchAt s tok (pyRfind s tok l (i - 1)).toNat = true) := by
        rcases pyRfind_mem s tok l (i - 1) with hm | ⟨hm1, _, hm3⟩
        · exact Or.inl hm
        · exact Or.inr ⟨hm1, hm3⟩
      rcases hx' : Xf n ('(' :: s ++ [')']) (l + 1) (i + 1 - 1) ρ with ⟨xr', ρ₁⟩
      rcases hx : Xf n s l (i - 1) ρ' with ⟨xr, ρ₁'⟩
      have hxx : xr' = xr := by
        rw [hx', hx] at hxeq
        exact hxeq
      subst hxx
      rcases hy' : Xf n ('(' :: s ++ [')']) (i + 1 + (tok.length : Int)) (r + 1) ρ₁
        with ⟨yr', ρ₂⟩
      rcases hy : Xf n s (i + (tok.length : Int)) r ρ₁' with ⟨yr, ρ₂'⟩
      have hyy : yr' = yr := by
        have hh := hX (i + (tok.length : Int)) r ρ₁ ρ₁' (by omega) hr
        have e2 : i + (tok.length : Int) + 1 = i + 1 + (tok.length : Int) := by ring
        rw [e2, hy', hy] at hh
        exact hh
      subst hyy
      cases xr' with
      | div =>
        rw [jointLoop, jointLoop, if_neg (by omega : ¬ i + 1 = -1), if_neg hi]
        simp only [hx', hx]
      | ok x =>
        cases yr' with
        | div =>
          rw [jointLoop, jointLoop, if_neg (by omega : ¬ i + 1 = -1), if_neg hi]
          simp only [hx', hx, hy', hy]
        | ok y =>
          rw [jointLoop, jointLoop, if_neg (by omega : ¬ i + 1 = -1), if_neg hi]
          simp only [hx', hx, hy', hy]
        | fail =>
          rw [jointLoop, jointLoop, if_neg (by omega : ¬ i + 1 = -1), if_neg hi]
          simp only [hx', hx, hy', hy]
          rw [hnext]
          exact ih (pyRfind s tok l (i - 1)) ρ₂ ρ₂' hmem
      | fail =>
        cases yr' with
        | div =>
          rw [jointLoop, jointLoop, if_neg (by omega : ¬ i + 1 = -1), if_neg hi]
          simp only [hx', hx, hy', hy]
        | ok y =>
          rw [jointLoop, jointLoop, if_neg (by omega : ¬ i + 1 = -1), if_neg hi]
          simp only [hx', hx, hy', hy]
          rw [hnext]
          exact ih (pyRfind s tok l (i - 1)) ρ₂ ρ₂' hmem
        | fail =>
          rw [jointLoop, jointLoop, if_neg (by omega : ¬ i + 1 = -1), if_neg hi]
          simp only [hx', hx, hy', hy]
          rw [hnext]
          exact ih (pyRfind s tok l (i - 1)) ρ₂ ρ₂' hmem

/-- Wrapping a string in parentheses shifts every span's parse result by
one, provided no operator token occurs at position 0 of the string (which
holds for every string that parses, by `Xf_opStart`). -/
theorem Xf_shift (s : List Char)
    (h0 : ∀ tok ∈ ([iffTok, impTok, orTok, andTok] : List (List Char)),
      listMatchAt s tok 0 = false) :
    ∀ (n : Nat) (l r : Int) (ρ ρ' : List Char), 0 ≤ l → r ≤ (s.length : Int) - 1 →
      (Xf n ('(' :: s ++ [')']) (l + 1) (r + 1) ρ).1 = (Xf n s l r ρ').1 := by
  intro n
  induction n with
  | zero => intro l r ρ ρ' _ _; rfl
  | succ n ih =>
    intro l r ρ ρ' hl0 hr
    conv_lhs => rw [Xf]
    conv_rhs => rw [Xf]
    by_cases hlr : l > r
    · rw [if_pos (by omega : l + 1 > r + 1), if_pos hlr]
    · rw [if_neg (by omega : ¬ l + 1 > r + 1), if_neg hlr]
      have hr0 : 0 ≤ r := by omega
      have hllen : l < (s.length : Int) := by omega
      have hrlen : r < (s.length : Int) := by omega
      have hcl := charAt_shift s l hl0 hllen
      have hcr := charAt_shift s r hr0 hrlen
      have hop : ∀ (mk : Expr → Expr → Expr) (tok : List Char), tok ≠ [] → ')' ∉ tok →
          listMatchAt s tok 0 = false → ∀ (ρa ρb : List Char),
          (opR mk (Xf n ('(' :: s ++ [')'])) ('(' :: s ++ [')']) tok (l + 1) (r + 1) n ρa).1 =
          (opR mk (Xf n s) s tok l r n ρb).1 := by
        intro mk tok hne hpar htok0 ρa ρb
        unfold opR jointR
        have hstart : pyRfind ('(' :: s ++ [')']) tok (l + 1) (r + 1 + 1) =
            (if pyRfind s tok l (r + 1) = -1 then -1
              else pyRfind s tok l (r + 1) + 1) :=
          pyRfind_shift s tok hne hpar l (r + 1) hl0 (by omega) (by omega) (by omega)
        rw [hstart]
        have hJ := jointLoop_shift n s (fun l r ρ ρ' hl hr => ih l r ρ ρ' hl hr)
          tok hne hpar htok0 l r hl0 (by omega) hr n (pyRfind s tok l (r + 1)) ρa ρb
          (by
            rcases pyRfind_mem s tok l (r + 1) with hm | ⟨hm1, _, hm3⟩
            · exact Or.inl hm
            · exact Or.inr ⟨hm1, hm3⟩)
        rcases hq' : jointLoop (Xf n ('(' :: s ++ [')'])) ('(' :: s ++ [')']) tok
            (l + 1) (r + 1) n
            (if pyRfind s tok l (r + 1) = -1 then -1 else pyRfind s tok l (r + 1) + 1) ρa
          with ⟨jr', σ⟩
        rcases hq : jointLoop (Xf n s) s tok l r n (pyRfind s tok l (r + 1)) ρb
          with ⟨jr, σ'⟩
        have hjj : jr' = jr := by
          rw [hq', hq] at hJ
          exact hJ
        subst hjj
        cases jr' <;> rfl
      refine tryRule_reg _ _ _ _ ?_ fun ρ₁ ρ₁' => ?_
      · unfold parenR
        rw [hcl, hcr]
        by_cases hg : charAt s l = '(' ∧ charAt s r = ')'
        · rw [if_pos hg, if_pos hg]
          have hh := ih (l + 1) (r - 1) ρ ρ' (by omega) (by omega)
          have e1 : r - 1 + 1 = r + 1 - 1 := by ring
          rw [e1] at hh
          exact hh
        · rw [if_neg hg, if_neg hg]
      refine tryRule_reg _ _ _ _ ?_ fun ρ₂ ρ₂' => ?_
      · unfold varR
        by_cases h1 : r ≠ l
        · rw [if_pos (by omega : r + 1 ≠ l + 1), if_pos h1]
        · rw [if_neg (by omega : ¬ r + 1 ≠ l + 1), if_neg h1, hcr]
          by_cases h2 : (charAt s r).isLower
          · simp only [h2, if_true]
          · simp only [h2, Bool.false_eq_true, if_false]
            by_cases h3 : charAt s r = 'T'
            · rw [if_pos h3, if_pos h3]
            · rw [if_neg h3, if_neg h3]
              by_cases h4 : charAt s r = 'F'
              · rw [if_pos h4, if_pos h4]
              · rw [if_neg h4, if_neg h4]
      refine tryRule_reg _ _ _ _
        (hop iffMk iffTok (by decide) (by decide) (h0 iffTok (by simp)) ρ₂ ρ₂')
        fun ρ₃ ρ₃' => ?_
      refine tryRule_reg _ _ _ _
        (hop .impl impTok (by decide) (by decide) (h0 impTok (by simp)) ρ₃ ρ₃')
        fun ρ₄ ρ₄' => ?_
      refine tryRule_reg _ _ _ _
        (hop .disj orTok (by decide) (by decide) (h0 orTok (by simp)) ρ₄ ρ₄')
        fun ρ₅ ρ₅' => ?_
      refine tryRule_reg _ _ _ _
        (hop .conj andTok (by decide) (by decide) (h0 andTok (by simp)) ρ₅ ρ₅')
        fun ρ₆ ρ₆' => ?_
      unfold negateR
      rw [hcl]
      by_cases hg : charAt s l = '~'
      · rw [if_pos hg, if_pos hg]
        rcases hrec' : Xf n ('(' :: s ++ [')']) (l + 1 + 1) (r + 1) ρ₆ with ⟨pr', σ⟩
        rcases hrec : Xf n s (l + 1) r ρ₆' with ⟨pr, σ'⟩
        have hpp : pr' = pr := by
          have hh := ih (l + 1) r ρ₆ ρ₆' (by omega) hr
          rw [hrec', hrec] at hh
          exact hh
        subst hpp
        cases pr' <;> rfl
      · rw [if_neg hg, if_neg hg]

/-- A string that parses has no operator token at position 0 (otherwise,
by `Xf_opStart`, it could not parse). -/
theorem parses_no_op_at_zero {s : List Char} {e : Expr} (h : Parses s e) :
    ∀ tok ∈ ([iffTok, impTok, orTok, andTok] : List (List Char)),
      listMatchAt s tok 0 = false := by
  intro tok htok
  obtain ⟨n, hn⟩ := h
  by_contra hc
  rw [Bool.not_eq_false] at hc
  simp only [List.mem_cons, List.not_mem_nil, or_false] at htok
  have hmem : charAt s 0 ∈ opStart := by
    rcases htok with ht | ht | ht | ht <;> subst ht <;>
      rw [listMatchAt_zero_head (by decide) hc] <;> decide
  exact Xf_opStart n s 0 ((s.length : Int) - 1) [] e hmem hn

/-- Parenthesizing a string that parses yields the same tree: the paren
rule fires on the outer parentheses and returns the interior's tree
unchanged. -/
theorem parses_paren_wrap {s : List Char} {e : Expr} (h : Parses s e) :
    Parses ('(' :: s ++ [')']) e := by
  obtain ⟨n, hn⟩ := h
  have h0 := parses_no_op_at_zero ⟨n, hn⟩
  refine ⟨n + 1, ?_⟩
  have hlen' : ((('(' :: s ++ [')']).length : Int)) - 1 = (s.length : Int) + 1 := by
    rw [List.cons_append]
    simp only [List.length_cons, List.length_append, List.length_nil]
    omega
  rw [hlen']
  have hcl0 : charAt ('(' :: s ++ [')']) 0 = '(' := by
    rw [List.cons_append]
    rfl
  have hcrN : charAt ('(' :: s ++ [')']) ((s.length : Int) + 1) = ')' := by
    rw [List.cons_append]
    unfold charAt pyIdx
    rw [if_neg (by omega : ¬ (s.length : Int) + 1 < 0)]
    have ht1 : ((s.length : Int) + 1).toNat = s.length + 1 := by omega
    rw [ht1]
    have ht2 : min (s.length + 1) ('(' :: (s ++ [')'])).length = s.length + 1 := by
      simp only [List.length_cons, List.length_append, List.length_nil]
      omega
    rw [ht2, List.getD_cons_succ, List.getD_append_right _ _ _ _ le_rfl]
    simp
  have hpR : (parenR (Xf n ('(' :: s ++ [')'])) ('(' :: s ++ [')']) 0
      ((s.length : Int) + 1) []).1 = .ok e := by
    unfold parenR
    rw [if_pos ⟨hcl0, hcrN⟩]
    have e2 : (s.length : Int) + 1 - 1 = (s.length : Int) - 1 + 1 := by ring
    rw [e2]
    have hsh := Xf_shift s h0 n 0 ((s.length : Int) - 1) [] [] le_rfl (by omega)
    rw [hsh]
    exact hn
  rw [Xf, if_neg (by omega : ¬ (0 : Int) > (s.length : Int) + 1)]
  rcases hPp : parenR (Xf n ('(' :: s ++ [')'])) ('(' :: s ++ [')']) 0
      ((s.length : Int) + 1) [] with ⟨pr, σ⟩
  rw [hPp] at hpR
  simp only at hpR
  subst hpR
  rw [tryRule_ok]

/-! ## The truth-table enumerator -/

theorem and_pow_eq_iff (m k : Nat) : (m &&& 2 ^ k = 2 ^ k) ↔ m.testBit k = true := by
  rw [Nat.and_two_pow]
  rcases h : m.testBit k
  · simp only [Bool.toNat_false, Nat.zero_mul, Bool.false_eq_true, iff_false]
    have := Nat.pos_pow_of_pos k (by omega : 0 < 2)
    omega
  · simp

theorem rowBools_testBit (n i : Nat) :
    rowBools n i = (List.range n).map (fun v => i.testBit (n - v - 1)) := by
  unfold rowBools
  apply List.map_congr_left
  intro v _
  rcases h : i.testBit (n - v - 1)
  · rw [decide_eq_false]
    intro hc
    rw [(and_pow_eq_iff i (n - v - 1)).mp hc] at h
    exact Bool.noConfusion h
  · rw [decide_eq_true ((and_pow_eq_iff i (n - v - 1)).mpr h)]

theorem rowBools_succ (n i : Nat) :
    rowBools (n + 1) i = i.testBit n :: rowBools n (i % 2 ^ n) := by
  rw [rowBools_testBit, rowBools_testBit, List.range_succ_eq_map, List.map_cons,
    List.map_map]
  rw [show n + 1 - 0 - 1 = n from by omega]
  congr 1
  apply List.map_congr_left
  intro v hv
  have hv' : v < n := List.mem_range.mp hv
  simp only [Function.comp_apply, Nat.succ_eq_add_one]
  rw [Nat.testBit_mod_two_pow]
  have e1 : n + 1 - (v + 1) - 1 = n - v - 1 := by omega
  rw [e1, decide_eq_true (by omega : n - v - 1 < n), Bool.true_and]

theorem testBit_of_lt_two_pow_succ {n i : Nat} (h : i < 2 ^ (n + 1)) :
    i.testBit n = decide (2 ^ n ≤ i) := by
  have hps : 2 ^ (n + 1) = 2 ^ n * 2 := pow_succ 2 n
  rw [Nat.testBit_to_div_mod]
  rcases lt_or_le i (2 ^ n) with h1 | h1
  · rw [Nat.div_eq_of_lt h1, decide_eq_false (show ¬ 2 ^ n ≤ i by omega)]
    decide
  · have hdiv : i / 2 ^ n = 1 := Nat.div_eq_of_lt_le (by omega) (by omega)
    rw [hdiv, decide_eq_true h1]
    decide

theorem rowBools_inj : ∀ (n i j : Nat), i < 2 ^ n → j < 2 ^ n →
    rowBools n i = rowBools n j → i = j := by
  intro n
  induction n with
  | zero =>
    intro i j hi hj _
    simp only [pow_zero] at hi hj
    omega
  | succ n ih =>
    intro i j hi hj heq
    have hpos : 0 < 2 ^ n := Nat.pos_pow_of_pos n (by omega)
    rw [rowBools_succ, rowBools_succ] at heq
    injection heq with h1 h2
    have hmod : i % 2 ^ n = j % 2 ^ n :=
      ih _ _ (Nat.mod_lt _ hpos) (Nat.mod_lt _ hpos) h2
    rw [testBit_of_lt_two_pow_succ hi, testBit_of_lt_two_pow_succ hj,
      decide_eq_decide] at h1
    have hps : 2 ^ (n + 1) = 2 ^ n * 2 := pow_succ 2 n
    by_cases hc : 2 ^ n ≤ i
    · have hcj : 2 ^ n ≤ j := h1.mp hc
      have e1 : i % 2 ^ n = i - 2 ^ n := by
        rw [Nat.mod_eq_sub_mod hc]
        exact Nat.mod_eq_of_lt (by omega)
      have e2 : j % 2 ^ n = j - 2 ^ n := by
        rw [Nat.mod_eq_sub_mod hcj]
        exact Nat.mod_eq_of_lt (by omega)
      omega
    · have hcj : ¬ 2 ^ n ≤ j := fun hh => hc (h1.mpr hh)
      have e1 : i % 2 ^ n = i := Nat.mod_eq_of_lt (by omega)
      have e2 : j % 2 ^ n = j := Nat.mod_eq_of_lt (by omega)
      omega

theorem rowBools_exists : ∀ (bs : List Bool),
    ∃ i, i < 2 ^ bs.length ∧ rowBools bs.length i = bs := by
  intro bs
  induction bs with
  | nil => exact ⟨0, by decide, rfl⟩
  | cons b rest ih =>
    obtain ⟨i0, hlt, hrow⟩ := ih
    have hps : 2 ^ (rest.length + 1) = 2 ^ rest.length * 2 := pow_succ 2 rest.length
    have hbn : b.toNat ≤ 1 := Bool.toNat_le b
    have he : b.toNat * 2 ^ rest.length ≤ 2 ^ rest.length := by
      rcases b <;> simp
    refine ⟨i0 + b.toNat * 2 ^ rest.length,
      by rw [show (b :: rest).length = rest.length + 1 from rfl]; omega, ?_⟩
    rw [show (b :: rest).length = rest.length + 1 from rfl, rowBools_succ]
    have hmod : (i0 + b.toNat * 2 ^ rest.length) % 2 ^ rest.length = i0 := by
      rw [Nat.add_mul_mod_self_right]
      exact Nat.mod_eq_of_lt hlt
    congr 1
    · rw [testBit_of_lt_two_pow_succ
        (show i0 + b.toNat * 2 ^ rest.length < 2 ^ (rest.length + 1) by omega)]
      rcases b
      · rw [decide_eq_false
          (show ¬ 2 ^ rest.length ≤ i0 + (false : Bool).toNat * 2 ^ rest.length by
            simp only [Bool.toNat_false, Nat.zero_mul, Nat.add_zero]
            omega)]
      · rw [decide_eq_true
          (show 2 ^ rest.length ≤ i0 + (true : Bool).toNat * 2 ^ rest.length by
            simp only [Bool.toNat_true, Nat.one_mul]
            omega)]
    · rw [hmod, hrow]

theorem rowBools_lex : ∀ (n i j : Nat), i < j → j < 2 ^ n →
    List.Lex (· < ·) (rowBools n i) (rowBools n j) := by
  intro n
  induction n with
  | zero =>
    intro i j hij hj
    simp only [pow_zero] at hj
    omega
  | succ n ih =>
    intro i j hij hj
    have hps : 2 ^ (n + 1) = 2 ^ n * 2 := pow_succ 2 n
    rw [rowBools_succ, rowBools_succ]
    have hbi := testBit_of_lt_two_pow_succ (show i < 2 ^ (n + 1) by omega)
    have hbj := testBit_of_lt_two_pow_succ hj
    by_cases hci : 2 ^ n ≤ i
    · have hcj : 2 ^ n ≤ j := by omega
      rw [hbi, hbj, decide_eq_true hci, decide_eq_true hcj]
      have e1 : i % 2 ^ n = i - 2 ^ n := by
        rw [Nat.mod_eq_sub_mod hci]
        exact Nat.mod_eq_of_lt (by omega)
      have e2 : j % 2 ^ n = j - 2 ^ n := by
        rw [Nat.mod_eq_sub_mod hcj]
        exact Nat.mod_eq_of_lt (by omega)
      rw [e1, e2]
      exact List.Lex.cons (ih _ _ (by omega) (by omega))
    · by_cases hcj : 2 ^ n ≤ j
      · rw [hbi, hbj, decide_eq_false hci, decide_eq_true hcj]
        exact List.Lex.rel (by decide)
      · rw [hbi, hbj, decide_eq_false hci, decide_eq_false hcj]
        have e1 : i % 2 ^ n = i := Nat.mod_eq_of_lt (by omega)
        have e2 : j % 2 ^ n = j := Nat.mod_eq_of_lt (by omega)
        rw [e1, e2]
        exact List.Lex.cons (ih _ _ hij (by omega))

theorem tableRows_length (vs : List Char) (e : Expr) :
    (tableRows vs e).length = 2 ^ vs.length := by
  unfold tableRows
  rw [List.length_map, List.length_range]

theorem tableRows_get (vs : List Char) (e : Expr) (i : Nat)
    (h : i < (tableRows vs e).length) :
    (tableRows vs e).get ⟨i, h⟩ =
      (rowBools vs.length i, e.eval (rowAssign vs i)) := by
  unfold tableRows
  rw [List.get_map]
  congr <;> rw [List.get_range]

/-! ## The evaluator and the solver model -/

theorem eval_congr_on_vars : ∀ (e : Expr) (σ τ : Char → Bool),
    (∀ c ∈ e.varsOf, σ c = τ c) → e.eval σ = e.eval τ := by
  intro e
  induction e with
  | var c =>
    intro σ τ h
    exact h c (by simp [Expr.varsOf])
  | val b => intro σ τ _; rfl
  | neg e ih =>
    intro σ τ h
    unfold Expr.eval
    rw [ih σ τ (fun c hc => h c (by simpa [Expr.varsOf] using hc))]
  | conj a b iha ihb =>
    intro σ τ h
    unfold Expr.eval
    rw [iha σ τ (fun c hc => h c (by simp [Expr.varsOf]; exact Or.inl hc)),
      ihb σ τ (fun c hc => h c (by simp [Expr.varsOf]; exact Or.inr hc))]
  | disj a b iha ihb =>
    intro σ τ h
    unfold Expr.eval
    rw [iha σ τ (fun c hc => h c (by simp [Expr.varsOf]; exact Or.inl hc)),
      ihb σ τ (fun c hc => h c (by simp [Expr.varsOf]; exact Or.inr hc))]
  | impl a b iha ihb =>
    intro σ τ h
    unfold Expr.eval
    rw [iha σ τ (fun c hc => h c (by simp [Expr.varsOf]; exact Or.inl hc)),
      ihb σ τ (fun c hc => h c (by simp [Expr.varsOf]; exact Or.inr hc))]

/-- The solver-backed check of `test` — satisfiability of the expression
conjoined with one pinning equality per registered variable — agrees with
direct recursive evaluation whenever the registry covers the tree's
variables. -/
theorem solverCheck_iff_eval (e : Expr) (vs : List Char) (asn : Char → Bool)
    (hsub : ∀ c ∈ e.varsOf, c ∈ vs) :
    solverCheck e vs asn ↔ e.eval asn = true := by
  constructor
  · rintro ⟨σ, hσe, hσpin⟩
    rw [← eval_congr_on_vars e σ asn (fun c hc => hσpin c (hsub c hc))]
    exact hσe
  · intro h
    exact ⟨asn, h, fun c _ => rfl⟩

theorem rfindFrom_none {s sub : List Char} {a : Nat} :
    ∀ {j : Nat}, rfindFrom s sub a j = none →
      ∀ m : Nat, m ≤ j → ¬ (a ≤ m ∧ listMatchAt s sub m = true) := by
  intro j
  induction j with
  | zero =>
    intro h m hm hc
    have hm0 : m = 0 := by omega
    subst hm0
    have ha0 : a = 0 := by omega
    subst ha0
    unfold rfindFrom at h
    rw [if_pos ⟨rfl, hc.2⟩] at h
    exact Option.noConfusion h
  | succ j ih =>
    intro h m hm hc
    unfold rfindFrom at h
    split at h
    · exact Option.noConfusion h
    · rename_i hcond
      rcases Nat.lt_or_ge m (j + 1) with hmj | hmj
      · exact ih h m (by omega) hc
      · have hmeq : m = j + 1 := by omega
        rw [hmeq] at hc
        exact hcond hc

theorem rfindFrom_maximal {s sub : List Char} {a : Nat} :
    ∀ {j k : Nat}, rfindFrom s sub a j = some k →
      ∀ m : Nat, k < m → m ≤ j → ¬ (a ≤ m ∧ listMatchAt s sub m = true) := by
  intro j
  induction j with
  | zero =>
    intro k h m hkm hm
    omega
  | succ j ih =>
    intro k h m hkm hm hc
    unfold rfindFrom at h
    split at h
    · cases h
      omega
    · rename_i hcond
      rcases Nat.lt_or_ge m (j + 1) with hmj | hmj
      · exact ih h m hkm (by omega) hc
      · have hmeq : m = j + 1 := by omega
        rw [hmeq] at hc
        exact hcond hc

/-- `rfind` really returns the rightmost occurrence: any in-range
occurrence is at or below the returned index. -/
theorem pyRfind_rightmost (s tok : List Char) (l e : Int) (k : Nat)
    (hak : pyIdx s.length l ≤ k) (hke : k + tok.length ≤ pyIdx s.length e)
    (hc : listMatchAt s tok k = true) : (k : Int) ≤ pyRfind s tok l e := by
  unfold pyRfind
  have hb : tok.length ≤ pyIdx s.length e := by omega
  rw [if_pos hb]
  rcases hq : rfindFrom s tok (pyIdx s.length l) (pyIdx s.length e - tok.length)
    with _ | jj
  · exact absurd ⟨hak, hc⟩ (rfindFrom_none hq k (by omega))
  · show (k : Int) ≤ (jj : Int)
    by_contra hlt
    push_neg at hlt
    have hjk : jj < k := by exact_mod_cast hlt
    exact rfindFrom_maximal hq k hjk (by omega) ⟨hak, hc⟩

/-! ## Concrete test inputs (already whitespace-free) -/

/-- The string `(a)&(b)`. -/
def parenAmp : List Char := ['(', 'a', ')', '&', '(', 'b', ')']

/-- The string `a->b->c`. -/
def impChain : List Char := ['a', '-', '>', 'b', '-', '>', 'c']

/-- The string `a&`. -/
def strAAmp : List Char := ['a', '&']

/-- The string `(a`. -/
def strParenA : List Char := ['(', 'a']

/-- The string `a~b`. -/
def strATildeB : List Char := ['a', '~', 'b']

/-- The string `a<->b`. -/
def strIff : List Char := ['a', '<', '-', '>', 'b']

/-- The string `(a->b)&(b->a)`. -/
def strIffExpanded : List Char :=
  ['(', 'a', '-', '>', 'b', ')', '&', '(', 'b', '-', '>', 'a', ')']

/-- A stand-in `sys.argv[0]` program name. -/
def progName : List Char := ['p', 'r', 'o', 'g']

/-! ## Claim theorems -/

/-- C1, counterexample: the span `(a)&(b)` starts with `(`, ends with `)`,
its interior `a)&(b` has no valid parse, and yet the whole span parses (to
`a AND b`) — other rule categories are tried after the paren rule fails,
contradicting the claim that the span then has no valid parse. -/
theorem c1_counterexample :
    charAt parenAmp 0 = '(' ∧ charAt parenAmp 6 = ')' ∧
    NoParse parenAmp 1 5 ∧
    (Xf 20 parenAmp 0 6 []).1 = .ok (.conj (.var 'a') (.var 'b')) :=
  ⟨rfl, rfl, @noParse_of_fail 20 parenAmp 1 5 (by decide), by decide⟩

/-- C1, amended: for every span wrapped in parentheses whose interior
fails, the Parenthesized rule itself fails, but the remaining rule
categories are still tried on the same outer characters and the span may
still parse; e.g. `(a)&(b)` parses as `a AND b` although its interior
fails. -/
theorem c1_amended :
    (∀ (n : Nat) (s : List Char) (l r : Int) (ρ : List Char),
      (Xf n s (l + 1) (r - 1) ρ).1 = .fail →
      (parenR (Xf n s) s l r ρ).1 = .fail) ∧
    NoParse parenAmp 1 5 ∧
    SpanParses parenAmp 0 6 (.conj (.var 'a') (.var 'b')) := by
  refine ⟨?_, @noParse_of_fail 20 parenAmp 1 5 (by decide), ⟨20, by decide⟩⟩
  intro n s l r ρ h
  unfold parenR
  by_cases hg : charAt s l = '(' ∧ charAt s r = ')'
  · rw [if_pos hg]
    exact h
  · rw [if_neg hg]

/-- C1, witness for the amended theorem at the concrete input
`(a)&(b)`. -/
theorem c1_amended_witness :
    (Xf 20 parenAmp (0 + 1) (6 - 1) []).1 = .fail ∧
    (parenR (Xf 20 parenAmp) parenAmp 0 6 []).1 = .fail :=
  ⟨by decide, c1_amended.1 20 parenAmp 0 6 [] (by decide)⟩

/-- C2: of the spec's malformed inputs, `a&`, `(a` and `a~b` fail cleanly
with the single failure outcome and an unchanged fresh registry, but on
`&a` the parse never returns at any fuel — the `joint` retry loop spins on
the occurrence of `&` at index 0 — so no failure outcome is produced
there. -/
theorem c2_malformed_inputs :
    getZ3Expr 20 strAAmp = (.fail, ['a']) ∧
    getZ3Expr 20 strParenA = (.fail, []) ∧
    getZ3Expr 20 strATildeB = (.fail, []) ∧
    (∀ n : Nat, (getZ3Expr n ampA).1 = .div) := by
  refine ⟨by decide, by decide, by decide, fun n => ?_⟩
  exact ampA_div n []

/-- C3: parsing does not terminate on every input: on `&a` the
rightward-to-leftward retry loop in `joint` re-finds the occurrence of `&`
at index 0 forever (Python's `rfind` end argument `-1` wraps to
`len - 1`), so the top-level parse never returns either a valid expression
or the failure value. -/
theorem c3_nontermination :
    ∀ n : Nat, (Xf n ampA 0 1 []).1 = .div ∧ (getZ3Expr n ampA).1 = .div :=
  fun n => ⟨ampA_div n [], ampA_div n []⟩

/-- C4: the binary-operator search starts at the rightmost in-range
occurrence (any other in-range occurrence is at or below the index
`rfind` returns); the first candidate at which both sub-spans parse is
accepted immediately, producing the operator node; consequently
`a->b->c` parses to `Implies(Implies(a, b), c)`. -/
theorem c4_rightmost_split :
    (∀ (s tok : List Char) (l e : Int) (k : Nat),
      pyIdx s.length l ≤ k → k + tok.length ≤ pyIdx s.length e →
      listMatchAt s tok k = true → (k : Int) ≤ pyRfind s tok l e) ∧
    (∀ (Xr : Int → Int → List Char → PR × List Char) (s tok : List Char)
      (l r : Int) (m : Nat) (i : Int) (ρ ρ₁ ρ₂ : List Char) (x y : Expr),
      i ≠ -1 → Xr l (i - 1) ρ = (.ok x, ρ₁) →
      Xr (i + (tok.length : Int)) r ρ₁ = (.ok y, ρ₂) →
      jointLoop Xr s tok l r (m + 1) i ρ = (.ok x y, ρ₂)) ∧
    (getZ3Expr 20 impChain).1 =
      .ok (.impl (.impl (.var 'a') (.var 'b')) (.var 'c')) := by
  refine ⟨pyRfind_rightmost, ?_, by decide⟩
  intro Xr s tok l r m i ρ ρ₁ ρ₂ x y hi hx hy
  rw [jointLoop, if_neg hi]
  simp only [hx, hy]

/-- C4, witness: the split lemma applied on `a->b->c` at the rightmost
`->` (index 4), and the resulting tree. -/
theorem c4_witness :
    (4 : Int) ≤ pyRfind impChain impTok 0 7 ∧
    jointLoop (Xf 10 impChain) impChain impTok 0 6 10 4 [] =
      (.ok (.impl (.var 'a') (.var 'b')) (.var 'c'), ['a', 'b', 'c']) :=
  ⟨c4_rightmost_split.1 impChain impTok 0 7 4 (by decide) (by decide) (by decide),
    c4_rightmost_split.2.1 (Xf 10 impChain) impChain impTok 0 6 9 4 []
      ['a', 'b'] ['a', 'b', 'c'] (.impl (.var 'a') (.var 'b')) (.var 'c')
      (by decide) (by decide) (by decide)⟩

/-- C7: `main` returns 1 for zero arguments, for two arguments, and for an
argument that fails to parse, and 0 on success — but the module-level call
on the last line discards that value, so the interpreter's exit status is
0 in every case, contradicting the claimed exit code 1. -/
theorem c7_exit_status :
    mainRet 20 [progName] = 1 ∧
    mainRet 20 [progName, strAAmp, strParenA] = 1 ∧
    mainRet 20 [progName, strAAmp] = 1 ∧
    mainRet 20 [progName, strIff] = 0 ∧
    (∀ (n : Nat) (argv : List (List Char)), scriptExit n argv = 0) :=
  ⟨by decide, by decide, by decide, by decide, fun n argv => rfl⟩

/-- C10: `a<->b` and `(a->b)&(b->a)` parse to the identical tree — the
iff rule directly builds the conjunction of the two implications, and the
expression type built by the parser has no separate iff node kind. -/
theorem c10_iff_is_conj_of_impl :
    (getZ3Expr 20 strIff).1 =
      .ok (.conj (.impl (.var 'a') (.var 'b')) (.impl (.var 'b') (.var 'a'))) ∧
    (getZ3Expr 20 strIffExpanded).1 =
      .ok (.conj (.impl (.var 'a') (.var 'b')) (.impl (.var 'b') (.var 'a'))) :=
  ⟨by decide, by decide⟩

/-- C5: the enumerator emits exactly `2 ^ n` rows, row `i` (for `i` from
`0` to `2 ^ n - 1` in increasing order) assigning the variable at index
`v` of the sorted list the bit `n - 1 - v` of `i`; distinct `i` give
lexicographically increasing assignment lists, every length-`n` assignment
appears exactly once, and `n = 0` yields a single row. -/
theorem c5_enumeration (vs : List Char) (e : Expr) :
    (tableRows vs e).length = 2 ^ vs.length ∧
    (∀ (i : Nat) (h : i < (tableRows vs e).length),
      (tableRows vs e).get ⟨i, h⟩ =
        (rowBools vs.length i, e.eval (rowAssign vs i))) ∧
    (∀ (i v : Nat), v < vs.length →
      (rowBools vs.length i).getD v false = i.testBit (vs.length - v - 1)) ∧
    (∀ i j : Nat, i < j → j < 2 ^ vs.length →
      List.Lex (· < ·) (rowBools vs.length i) (rowBools vs.length j)) ∧
    (∀ bs : List Bool, bs.length = vs.length →
      ∃! i, i < 2 ^ vs.length ∧ rowBools vs.length i = bs) ∧
    (vs.length = 0 → tableRows vs e = [([], e.eval (rowAssign vs 0))]) := by
  refine ⟨tableRows_length vs e, tableRows_get vs e, ?_, rowBools_lex vs.length, ?_, ?_⟩
  · intro i v hv
    rw [rowBools_testBit]
    rw [List.getD_eq_getElem _ false (by simpa using hv)]
    simp
  · intro bs hbs
    obtain ⟨i, hlt, hrow⟩ := rowBools_exists bs
    rw [hbs] at hlt hrow
    refine ⟨i, ⟨hlt, hrow⟩, ?_⟩
    rintro j ⟨hjlt, hjrow⟩
    exact rowBools_inj vs.length j i hjlt hlt (by rw [hjrow, hrow])
  · intro hn
    have hvs : vs = [] := List.eq_nil_of_length_eq_zero hn
    subst hvs
    rfl

/-- C5, witness: the enumerator facts evaluated for two variables. -/
theorem c5_witness :
    (tableRows ['a', 'b'] (.conj (.var 'a') (.var 'b'))).length = 4 ∧
    List.Lex (· < ·) (rowBools 2 1) (rowBools 2 2) ∧
    (rowBools 2 2).getD 0 false = Nat.testBit 2 1 := by
  have h := c5_enumeration ['a', 'b'] (.conj (.var 'a') (.var 'b'))
  exact ⟨h.1, h.2.2.2.1 1 2 (by decide) (by decide),
    h.2.2.1 2 0 (by decide)⟩

/-- C6: under a total assignment of all registered variables (the
registry covering the tree's variables), the solver-backed check —
satisfiability of the asserted tree conjoined with one pinning equality
per variable — holds exactly when direct recursive evaluation returns
true; and the connectives evaluate as claimed: the parsed iff of `a, b` is
equality of the two boolean values, and `Implies(a,b)` is
`(NOT a) OR b`. -/
theorem c6_solver_eval (e : Expr) (vs : List Char) (asn : Char → Bool)
    (hsub : ∀ c ∈ e.varsOf, c ∈ vs) :
    (solverCheck e vs asn ↔ e.eval asn = true) ∧
    (∀ (a b : Expr) (σ : Char → Bool),
      (iffMk a b).eval σ = (a.eval σ == b.eval σ)) ∧
    (∀ (a b : Expr) (σ : Char → Bool),
      (Expr.impl a b).eval σ = (!(a.eval σ) || b.eval σ)) := by
  refine ⟨solverCheck_iff_eval e vs asn hsub, ?_, fun a b σ => rfl⟩
  intro a b σ
  unfold iffMk
  rcases ha : a.eval σ <;> rcases hb : b.eval σ <;>
    simp [Expr.eval, ha, hb]

/-- C6, witness: the equivalence applied to `a AND b` with both variables
pinned true. -/
theorem c6_witness :
    (∀ c ∈ (Expr.conj (.var 'a') (.var 'b')).varsOf, c ∈ ['a', 'b']) ∧
    (solverCheck (Expr.conj (.var 'a') (.var 'b')) ['a', 'b'] (fun _ => true) ↔
      (Expr.conj (.var 'a') (.var 'b')).eval (fun _ => true) = true) :=
  ⟨by decide, (c6_solver_eval (Expr.conj (.var 'a') (.var 'b')) ['a', 'b']
    (fun _ => true) (by decide)).1⟩

/-- C8: a string that parses to a tree still parses to that same tree —
and no other — after wrapping it in parentheses: the paren rule is
transparent. -/
theorem c8_paren_transparent (s : List Char) (e : Expr) (h : Parses s e) :
    Parses ('(' :: s ++ [')']) e ∧
    ∀ e', Parses ('(' :: s ++ [')']) e' → e' = e :=
  ⟨parses_paren_wrap h, fun _ h' => spanParses_unique h' (parses_paren_wrap h)⟩

/-- C8, witness: `a` parses to a literal and so does `(a)`. -/
theorem c8_witness :
    Parses ['a'] (.var 'a') ∧ Parses ['(', 'a', ')'] (.var 'a') :=
  ⟨⟨2, by decide⟩, (c8_paren_transparent ['a'] (.var 'a') ⟨2, by decide⟩).1⟩

/-- C9: the parse result of any span never depends on the registry
contents carried over from other formulas (only the returned registry
does), and a fresh-registry session is a pure function of the formula
text: re-running it yields identical trees and identical rows. -/
theorem c9_fresh_sessions (n : Nat) (text : List Char) :
    (∀ (s : List Char) (l r : Int) (ρ ρ' : List Char),
      (Xf n s l r ρ).1 = (Xf n s l r ρ').1) ∧
    getZ3Expr n text = getZ3Expr n text ∧
    sessionRows n text = sessionRows n text :=
  ⟨fun s l r ρ ρ' => Xf_reg n s l r ρ ρ', rfl, rfl⟩
